import Mathlib

/-!
Shallow embedding of `powork.go` (package powork), a hash-based
proof-of-work library, together with theorems checking the repository's
design document against the code.

Modelling conventions:
* Go `byte` values are `Nat` (theorems carry `< 256` bounds where the scan
  is interpreted bitwise).
* Go `int` / `int64` values are `Int`; two's-complement wraparound of
  64-bit arithmetic is made explicit through `wrap64`.
* The injectable `hash.Hash` collaborator is a pure stateful digest object:
  `Reset` clears the absorbed byte list, `Write` appends to it, `Sum`
  applies a pure digest function to the absorbed bytes.
* The wall-clock timeout channel created by `time.After` in `DoProofFor`
  is modelled by an oracle `fired : Nat → Bool` telling whether the timer
  has delivered by the k-th `select` check; Go only guarantees the timer
  does not fire before the duration elapses, so for duration 0 every
  oracle is a possible behaviour.
* The unbounded `for` loop of `DoProofFor` is given explicit fuel; a real
  terminating run corresponds to a sufficiently large fuel value, and
  `none` means the loop is still running after `fuel` iterations.
-/

/-- 64-bit two's-complement wraparound: reduce an integer into
`[-2^63, 2^63)`, as Go's `int`/`int64` arithmetic does on overflow. -/
def wrap64 (x : Int) : Int := (x + 2 ^ 63) % 2 ^ 64 - 2 ^ 63

/-- A hash capability (Go `hash.Hash`): internal absorbed-byte state plus a
pure digest function applied by `Sum`. -/
structure HashCap where
  state : List Nat
  digestOf : List Nat → List Nat

/-- The `Worker` struct of powork.go: difficulty, hash factory (modelled by
the capability the factory returns) and timeout in milliseconds. -/
structure Worker where
  difficulty : Int
  getHash : HashCap
  maxWait : Int

/-- The `PoWork` struct of powork.go: message, nonce (`proof`, Go `int64`)
and iteration counter. -/
structure PoWork where
  msg : List Nat
  proof : Int
  requiredIterations : Int
deriving DecidableEq

/-- `GetMessage` of powork.go. -/
def GetMessage (p : PoWork) : List Nat := p.msg

/-- `SetDifficulty` of powork.go: stores the value first, then reports an
error when it is not positive. -/
def SetDifficulty (p : Worker) (difficulty : Int) : Worker × Option String :=
  let p' := { p with difficulty := difficulty }
  if difficulty ≤ 0 then (p', some "Difficulty must be at least 1") else (p', none)

/-- `SetTimeout` of powork.go: stores the value first, then reports an
error when the stored field is negative. -/
def SetTimeout (p : Worker) (milliseconds : Int) : Worker × Option String :=
  let p' := { p with maxWait := milliseconds }
  if p'.maxWait < 0 then (p', some "Timeout must be greater than or equal to 0") else (p', none)

/-- `SetHashGetter` of powork.go. -/
def SetHashGetter (p : Worker) (h : HashCap) : Worker := { p with getHash := h }

/-- Go conversion `uint64(v)` of an `int64` value: the two's-complement
bit pattern read as an unsigned number. -/
def uint64OfInt64 (v : Int) : Nat := (v % 2 ^ 64).toNat

/-- The 8 bytes written by `binary.Write(hash, binary.LittleEndian, pow.proof)`:
`encoding/binary` puts `uint64(v)` little-endian, byte `i` being bits
`8*i .. 8*i+7`. -/
def putUint64LE (v : Int) : List Nat :=
  (List.range 8).map fun i => (uint64OfInt64 v >>> (8 * i)) % 256

/-- Outcome of scanning one byte in `ValidatePoWork`'s inner loop: either
the function returned early with a Bool, or the byte was exhausted and the
scan continues with an updated remaining-count. -/
inductive BitScan where
  | done : Bool → BitScan
  | more : Int → BitScan
deriving DecidableEq

/-- The inner `for i := 0; i < 8; i++` loop of `ValidatePoWork`:
`(x<<1)>>1 == x` on a Go `byte` is `x*2%256/2 = x` (top bit clear); on a
clear bit the count is decremented (64-bit wraparound) and the byte shifted,
on a set bit the scan returns false; the count is tested against 0 only
after a decrement. -/
def scanByteBits : Nat → Nat → Int → BitScan
  | 0, _, n => .more n
  | i + 1, x, n =>
    if x * 2 % 256 / 2 = x then
      let n' := wrap64 (n - 1)
      if n' = 0 then .done true else scanByteBits i (x * 2 % 256) n'
    else .done false

/-- The outer `for _, x := range sum` loop of `ValidatePoWork`: scan bytes
in order; exhausting the digest without an early return is the
"Buffer overrun" error. -/
def scanSum : List Nat → Int → Except String Bool
  | [], _ => .error "Buffer overrun: not enough bits in hash"
  | x :: rest, n =>
    match scanByteBits 8 x n with
    | .done b => .ok b
    | .more n' => scanSum rest n'

/-- `ValidatePoWork` of powork.go: reset the hash, absorb the message, absorb
the little-endian nonce, take the digest, and run the leading-zero-bit scan
against the stored difficulty. The pure hash model cannot fail to write, so
the two `err != nil` branches of the source are unreachable here. -/
def ValidatePoWork (p : Worker) (pow : PoWork) : Except String Bool :=
  let h := p.getHash
  let h := { h with state := [] }
  let h := { h with state := h.state ++ pow.msg }
  let h := { h with state := h.state ++ putUint64LE pow.proof }
  let sum := h.digestOf h.state
  scanSum sum p.difficulty

/-- The error string returned by `DoProofFor` when the timeout channel has
fired. -/
def timeoutMsg : String := "Timed out while calculating proof of work"

/-- The `for` loop of `DoProofFor`, with explicit fuel and the timer oracle.
State: `k` is the number of completed iterations (index for the oracle),
`proof` and `ri` are the current `toR.proof` and `toR.requiredIterations`.
Each round validates the current candidate; on error it propagates, on
success it returns the current `PoWork`, otherwise both counters are
incremented (64-bit wraparound) and the `select` checks the timer. -/
def DoProofForAux (p : Worker) (fired : Nat → Bool) (msg : List Nat) :
    Nat → Nat → Int → Int → Option (Except String PoWork)
  | 0, _, _, _ => none
  | fuel + 1, k, proof, ri =>
    match ValidatePoWork p ⟨msg, proof, ri⟩ with
    | .error e => some (.error e)
    | .ok true => some (.ok ⟨msg, proof, ri⟩)
    | .ok false =>
      if fired k then some (.error timeoutMsg)
      else DoProofForAux p fired msg fuel (k + 1) (wrap64 (proof + 1)) (wrap64 (ri + 1))

/-- `DoProofFor` of powork.go: start from nonce 0 and iteration count 0. -/
def DoProofFor (p : Worker) (fired : Nat → Bool) (fuel : Nat) (msg : List Nat) :
    Option (Except String PoWork) :=
  DoProofForAux p fired msg fuel 0 0 0

/-- A result channel as used by `PrepareProof` / `SendProofToChannel`:
the trace of outcomes sent on it, and whether it has been closed. -/
structure Channel where
  sent : List (Except String PoWork)
  closed : Bool

/-- `GetChannel` of powork.go: a fresh channel with nothing sent. -/
def GetChannel : Channel := ⟨[], false⟩

/-- `PrepareProof` of powork.go: a goroutine runs `DoProofFor`, sends the
single outcome on a fresh channel and closes it; if the search has not
terminated (`none`), nothing has been sent yet. -/
def PrepareProof (p : Worker) (fired : Nat → Bool) (fuel : Nat) (msg : List Nat) : Channel :=
  match DoProofFor p fired fuel msg with
  | none => ⟨[], false⟩
  | some r => ⟨[r], true⟩

/-- `SendProofToChannel` of powork.go: a goroutine runs `DoProofFor` and
pushes the single outcome onto the caller's channel without closing it. -/
def SendProofToChannel (p : Worker) (fired : Nat → Bool) (fuel : Nat) (msg : List Nat)
    (c : Channel) : Channel :=
  match DoProofFor p fired fuel msg with
  | none => c
  | some r => { c with sent := c.sent ++ [r] }

/-! Analysis helpers (not part of the source): the position of the first
set bit, the bitwise reading of a digest, and a little-endian decoder used
to state the nonce-encoding contract. -/

/-- Index (0-based, MSB first) of the first bit the scan would find set
among the first `i` bits of byte `x`, mirroring `scanByteBits`' test. -/
def byteFirstOne : Nat → Nat → Option Nat
  | 0, _ => none
  | i + 1, x =>
    if x * 2 % 256 / 2 = x then (byteFirstOne i (x * 2 % 256)).map (· + 1) else some 0

/-- Index (0-based, bytes in order, MSB first within a byte) of the first
set bit of a digest. -/
def sumFirstOne : List Nat → Option Nat
  | [] => none
  | x :: rest =>
    match byteFirstOne 8 x with
    | some j => some j
    | none => (sumFirstOne rest).map (· + 8)

/-- Bit `k` of a digest, bytes in order, most-significant bit first. -/
def sumBit (D : List Nat) (k : Nat) : Nat := D.getD (k / 8) 0 / 2 ^ (7 - k % 8) % 2

/-- Little-endian byte-list decoder. -/
def leDecode : List Nat → Nat
  | [] => 0
  | b :: rest => b + 256 * leDecode rest

/-! Concrete hash capabilities and workers used to evaluate the theorems on
explicit inputs. -/

/-- A capability whose digest function ignores its input and always
returns `D`. -/
def hashConst (D : List Nat) : HashCap := ⟨[], fun _ => D⟩

/-- A worker with the given difficulty, constant digest `D` and timeout. -/
def workerConst (d : Int) (D : List Nat) (t : Int) : Worker := ⟨d, hashConst D, t⟩

/-- A capability that answers `[0]` (eight zero bits) exactly when the
absorbed bytes are the encoding of nonce 1, and `[255]` otherwise. -/
def stepHash : HashCap := ⟨[], fun bs => if bs = putUint64LE 1 then [0] else [255]⟩

/-- A difficulty-1 worker over `stepHash`: nonce 0 is invalid, nonce 1 is
the first valid candidate. -/
def stepWorker : Worker := ⟨1, stepHash, 5000⟩

/-! Arithmetic facts about `wrap64`. -/

lemma wrap64_id (x : Int) (h1 : -2 ^ 63 ≤ x) (h2 : x < 2 ^ 63) : wrap64 x = x := by
  unfold wrap64; omega

lemma wrap64_sub (a k : Int) : wrap64 (wrap64 a - k) = wrap64 (a - k) := by
  unfold wrap64; omega

lemma wrap64_range (a : Int) : -2 ^ 63 ≤ wrap64 a ∧ wrap64 a < 2 ^ 63 := by
  unfold wrap64; omega

/-! Characterization of the inner bit loop in terms of the position of the
first set bit, for a positive in-range remaining count. -/

lemma byteFirstOne_lt : ∀ i x j, byteFirstOne i x = some j → j < i := by
  intro i
  induction i with
  | zero => intro x j h; simp [byteFirstOne] at h
  | succ i ih =>
    intro x j h
    unfold byteFirstOne at h
    split at h
    · cases hb : byteFirstOne i (x * 2 % 256) with
      | none => rw [hb] at h; simp at h
      | some j' => rw [hb] at h; simp at h; have := ih _ _ hb; omega
    · simp at h; omega

lemma scanByteBits_none_gt : ∀ (i : Nat) (x : Nat) (n : Int), byteFirstOne i x = none →
    1 ≤ n → n < 2 ^ 63 → (i : Int) < n → scanByteBits i x n = .more (n - i) := by
  intro i
  induction i with
  | zero => intro x n _ _ _ _; simp [scanByteBits]
  | succ i ih =>
    intro x n hf h1 h2 h3
    unfold byteFirstOne at hf
    split at hf
    · rename_i hbit
      have hnone : byteFirstOne i (x * 2 % 256) = none := by
        cases hb : byteFirstOne i (x * 2 % 256) with
        | none => rfl
        | some j => rw [hb] at hf; simp at hf
      unfold scanByteBits
      rw [if_pos hbit]
      have hw : wrap64 (n - 1) = n - 1 := wrap64_id _ (by omega) (by omega)
      rw [hw]
      have : ¬ (n - 1 = 0) := by push_cast at h3; omega
      simp only [this, if_false]
      rw [ih _ _ hnone (by push_cast at h3 ⊢; omega) (by omega) (by push_cast at h3 ⊢; omega)]
      congr 1
      push_cast
      ring
    · simp at hf

lemma scanByteBits_none_le : ∀ (i : Nat) (x : Nat) (n : Int), byteFirstOne i x = none →
    1 ≤ n → n < 2 ^ 63 → n ≤ (i : Int) → scanByteBits i x n = .done true := by
  intro i
  induction i with
  | zero => intro x n _ h1 _ h3; simp at h3; omega
  | succ i ih =>
    intro x n hf h1 h2 h3
    unfold byteFirstOne at hf
    split at hf
    · rename_i hbit
      have hnone : byteFirstOne i (x * 2 % 256) = none := by
        cases hb : byteFirstOne i (x * 2 % 256) with
        | none => rfl
        | some j => rw [hb] at hf; simp at hf
      unfold scanByteBits
      rw [if_pos hbit]
      have hw : wrap64 (n - 1) = n - 1 := wrap64_id _ (by omega) (by omega)
      rw [hw]
      by_cases hz : n - 1 = 0
      · simp [hz]
      · simp only [hz, if_false]
        exact ih _ _ hnone (by omega) (by omega) (by push_cast at h3 ⊢; omega)
    · simp at hf

lemma scanByteBits_some_le : ∀ (i : Nat) (x : Nat) (j : Nat) (n : Int), byteFirstOne i x = some j →
    1 ≤ n → n < 2 ^ 63 → n ≤ (j : Int) → scanByteBits i x n = .done true := by
  intro i
  induction i with
  | zero => intro x j n hf _ _ _; simp [byteFirstOne] at hf
  | succ i ih =>
    intro x j n hf h1 h2 h3
    unfold byteFirstOne at hf
    split at hf
    · rename_i hbit
      cases hb : byteFirstOne i (x * 2 % 256) with
      | none => rw [hb] at hf; simp at hf
      | some j' =>
        rw [hb] at hf; simp at hf
        unfold scanByteBits
        rw [if_pos hbit]
        have hw : wrap64 (n - 1) = n - 1 := wrap64_id _ (by omega) (by omega)
        rw [hw]
        by_cases hz : n - 1 = 0
        · simp [hz]
        · simp only [hz, if_false]
          exact ih _ _ _ hb (by omega) (by omega) (by subst hf; push_cast at h3 ⊢; omega)
    · simp at hf
      subst hf
      simp at h3
      omega

lemma scanByteBits_some_gt : ∀ (i : Nat) (x : Nat) (j : Nat) (n : Int), byteFirstOne i x = some j →
    1 ≤ n → n < 2 ^ 63 → (j : Int) < n → scanByteBits i x n = .done false := by
  intro i
  induction i with
  | zero => intro x j n hf _ _ _; simp [byteFirstOne] at hf
  | succ i ih =>
    intro x j n hf h1 h2 h3
    unfold byteFirstOne at hf
    split at hf
    · rename_i hbit
      cases hb : byteFirstOne i (x * 2 % 256) with
      | none => rw [hb] at hf; simp at hf
      | some j' =>
        rw [hb] at hf; simp at hf
        subst hf
        unfold scanByteBits
        rw [if_pos hbit]
        have hw : wrap64 (n - 1) = n - 1 := wrap64_id _ (by omega) (by omega)
        rw [hw]
        have : ¬ (n - 1 = 0) := by push_cast at h3; omega
        simp only [this, if_false]
        exact ih _ _ _ hb (by push_cast at h3 ⊢; omega) (by omega) (by push_cast at h3 ⊢; omega)
    · unfold scanByteBits
      rename_i hbit
      rw [if_neg hbit]

/-! Characterization of the outer byte loop. -/

lemma sumFirstOne_lt : ∀ (D : List Nat) (j : Nat), sumFirstOne D = some j → j < 8 * D.length := by
  intro D
  induction D with
  | nil => intro j h; simp [sumFirstOne] at h
  | cons x rest ih =>
    intro j h
    unfold sumFirstOne at h
    cases hb : byteFirstOne 8 x with
    | some j0 =>
      rw [hb] at h; simp at h; subst h
      have := byteFirstOne_lt _ _ _ hb
      simp [List.length_cons]; omega
    | none =>
      rw [hb] at h
      cases hr : sumFirstOne rest with
      | none => rw [hr] at h; simp at h
      | some j' =>
        rw [hr] at h; simp at h
        have := ih _ hr
        simp [List.length_cons]; omega

lemma scanSum_none_gt : ∀ (D : List Nat) (n : Int), sumFirstOne D = none →
    1 ≤ n → n < 2 ^ 63 → 8 * (D.length : Int) < n →
    scanSum D n = .error "Buffer overrun: not enough bits in hash" := by
  intro D
  induction D with
  | nil => intro n _ _ _ _; rfl
  | cons x rest ih =>
    intro n hf h1 h2 h3
    unfold sumFirstOne at hf
    cases hb : byteFirstOne 8 x with
    | some j0 => rw [hb] at hf; simp at hf
    | none =>
      rw [hb] at hf
      have hr : sumFirstOne rest = none := by
        cases hr : sumFirstOne rest with
        | none => rfl
        | some j => rw [hr] at hf; simp at hf
      have h3' : 8 * (rest.length : Int) + 8 < n := by
        simp only [List.length_cons] at h3; push_cast at h3; omega
      unfold scanSum
      rw [scanByteBits_none_gt 8 x n hb h1 h2 (by omega)]
      exact ih (n - 8) hr (by omega) (by omega) (by omega)

lemma scanSum_none_le : ∀ (D : List Nat) (n : Int), sumFirstOne D = none →
    1 ≤ n → n < 2 ^ 63 → n ≤ 8 * (D.length : Int) →
    scanSum D n = .ok true := by
  intro D
  induction D with
  | nil => intro n _ h1 _ h3; simp at h3; omega
  | cons x rest ih =>
    intro n hf h1 h2 h3
    unfold sumFirstOne at hf
    cases hb : byteFirstOne 8 x with
    | some j0 => rw [hb] at hf; simp at hf
    | none =>
      rw [hb] at hf
      have hr : sumFirstOne rest = none := by
        cases hr : sumFirstOne rest with
        | none => rfl
        | some j => rw [hr] at hf; simp at hf
      by_cases hle : n ≤ 8
      · unfold scanSum
        rw [scanByteBits_none_le 8 x n hb h1 h2 (by push_cast; omega)]
      · unfold scanSum
        rw [scanByteBits_none_gt 8 x n hb h1 h2 (by push_cast; omega)]
        exact ih (n - 8) hr (by omega) (by omega)
          (by simp only [List.length_cons] at h3; push_cast at h3 ⊢; omega)

lemma scanSum_some_le : ∀ (D : List Nat) (j : Nat) (n : Int), sumFirstOne D = some j →
    1 ≤ n → n < 2 ^ 63 → n ≤ (j : Int) →
    scanSum D n = .ok true := by
  intro D
  induction D with
  | nil => intro j n hf _ _ _; simp [sumFirstOne] at hf
  | cons x rest ih =>
    intro j n hf h1 h2 h3
    unfold sumFirstOne at hf
    cases hb : byteFirstOne 8 x with
    | some j0 =>
      rw [hb] at hf; simp at hf; subst hf
      unfold scanSum
      rw [scanByteBits_some_le 8 x _ n hb h1 h2 h3]
    | none =>
      rw [hb] at hf
      cases hr : sumFirstOne rest with
      | none => rw [hr] at hf; simp at hf
      | some j' =>
        rw [hr] at hf; simp at hf; subst hf
        by_cases hle : n ≤ 8
        · unfold scanSum
          rw [scanByteBits_none_le 8 x n hb h1 h2 (by push_cast; omega)]
        · unfold scanSum
          rw [scanByteBits_none_gt 8 x n hb h1 h2 (by push_cast; omega)]
          exact ih j' (n - 8) hr (by omega) (by omega) (by push_cast at h3 ⊢; omega)

lemma scanSum_some_gt : ∀ (D : List Nat) (j : Nat) (n : Int), sumFirstOne D = some j →
    1 ≤ n → n < 2 ^ 63 → (j : Int) < n →
    scanSum D n = .ok false := by
  intro D
  induction D with
  | nil => intro j n hf _ _ _; simp [sumFirstOne] at hf
  | cons x rest ih =>
    intro j n hf h1 h2 h3
    unfold sumFirstOne at hf
    cases hb : byteFirstOne 8 x with
    | some j0 =>
      rw [hb] at hf; simp at hf; subst hf
      unfold scanSum
      rw [scanByteBits_some_gt 8 x _ n hb h1 h2 h3]
    | none =>
      rw [hb] at hf
      cases hr : sumFirstOne rest with
      | none => rw [hr] at hf; simp at hf
      | some j' =>
        rw [hr] at hf; simp at hf; subst hf
        unfold scanSum
        rw [scanByteBits_none_gt 8 x n hb h1 h2 (by push_cast at h3 ⊢; omega)]
        exact ih j' (n - 8) hr (by push_cast at h3 ⊢; omega) (by omega)
          (by push_cast at h3 ⊢; omega)

/-! The scan for a remaining count that never reaches zero (covers
nonpositive difficulties, where the count is decremented before the zero
test and so can never hit it). -/

lemma scanByteBits_none_noHit : ∀ (i : Nat) (x : Nat) (n : Int), byteFirstOne i x = none →
    -2 ^ 63 ≤ n → n < 2 ^ 63 →
    (∀ k : Nat, 1 ≤ k → k ≤ i → wrap64 (n - k) ≠ 0) →
    scanByteBits i x n = .more (wrap64 (n - i)) := by
  intro i
  induction i with
  | zero =>
    intro x n _ h1 h2 _
    simp [scanByteBits, wrap64_id n h1 h2]
  | succ i ih =>
    intro x n hf h1 h2 hk
    unfold byteFirstOne at hf
    split at hf
    · rename_i hbit
      have hnone : byteFirstOne i (x * 2 % 256) = none := by
        cases hb : byteFirstOne i (x * 2 % 256) with
        | none => rfl
        | some j => rw [hb] at hf; simp at hf
      unfold scanByteBits
      rw [if_pos hbit]
      have hz : ¬ (wrap64 (n - 1) = 0) := hk 1 (by omega) (by omega)
      simp only [hz, if_false]
      rw [ih _ _ hnone (wrap64_range _).1 (wrap64_range _).2
        (fun k hk1 hk2 => by
          rw [wrap64_sub]
          have : n - 1 - (k : Int) = n - ((k + 1 : Nat) : Int) := by push_cast; ring
          rw [this]
          exact hk (k + 1) (by omega) (by omega))]
      rw [wrap64_sub]
      have : n - 1 - (i : Int) = n - ((i + 1 : Nat) : Int) := by push_cast; ring
      rw [this]
    · simp at hf

lemma scanByteBits_some_noHit : ∀ (i : Nat) (x : Nat) (j : Nat) (n : Int),
    byteFirstOne i x = some j → -2 ^ 63 ≤ n → n < 2 ^ 63 →
    (∀ k : Nat, 1 ≤ k → k ≤ j → wrap64 (n - k) ≠ 0) →
    scanByteBits i x n = .done false := by
  intro i
  induction i with
  | zero => intro x j n hf _ _ _; simp [byteFirstOne] at hf
  | succ i ih =>
    intro x j n hf h1 h2 hk
    unfold byteFirstOne at hf
    split at hf
    · rename_i hbit
      cases hb : byteFirstOne i (x * 2 % 256) with
      | none => rw [hb] at hf; simp at hf
      | some j' =>
        rw [hb] at hf; simp at hf; subst hf
        unfold scanByteBits
        rw [if_pos hbit]
        have hz : ¬ (wrap64 (n - 1) = 0) := hk 1 (by omega) (by omega)
        simp only [hz, if_false]
        exact ih _ _ _ hb (wrap64_range _).1 (wrap64_range _).2
          (fun k hk1 hk2 => by
            rw [wrap64_sub]
            have : n - 1 - (k : Int) = n - ((k + 1 : Nat) : Int) := by push_cast; ring
            rw [this]
            exact hk (k + 1) (by omega) (by omega))
    · rename_i hbit
      unfold scanByteBits
      rw [if_neg hbit]

lemma scanSum_noHit_none : ∀ (D : List Nat) (n : Int), sumFirstOne D = none →
    -2 ^ 63 ≤ n → n < 2 ^ 63 →
    (∀ k : Nat, 1 ≤ k → k ≤ 8 * D.length → wrap64 (n - k) ≠ 0) →
    scanSum D n = .error "Buffer overrun: not enough bits in hash" := by
  intro D
  induction D with
  | nil => intro n _ _ _ _; rfl
  | cons x rest ih =>
    intro n hf h1 h2 hk
    unfold sumFirstOne at hf
    cases hb : byteFirstOne 8 x with
    | some j0 => rw [hb] at hf; simp at hf
    | none =>
      rw [hb] at hf
      have hr : sumFirstOne rest = none := by
        cases hr : sumFirstOne rest with
        | none => rfl
        | some j => rw [hr] at hf; simp at hf
      unfold scanSum
      rw [scanByteBits_none_noHit 8 x n hb h1 h2
        (fun k hk1 hk2 => hk k hk1 (by simp [List.length_cons]; omega))]
      exact ih _ hr (wrap64_range _).1 (wrap64_range _).2
        (fun k hk1 hk2 => by
          rw [wrap64_sub]
          have : n - (8 : Nat) - (k : Int) = n - ((k + 8 : Nat) : Int) := by push_cast; ring
          rw [this]
          exact hk (k + 8) (by omega) (by simp [List.length_cons]; omega))

lemma scanSum_noHit_some : ∀ (D : List Nat) (j : Nat) (n : Int), sumFirstOne D = some j →
    -2 ^ 63 ≤ n → n < 2 ^ 63 →
    (∀ k : Nat, 1 ≤ k → k ≤ j → wrap64 (n - k) ≠ 0) →
    scanSum D n = .ok false := by
  intro D
  induction D with
  | nil => intro j n hf _ _ _; simp [sumFirstOne] at hf
  | cons x rest ih =>
    intro j n hf h1 h2 hk
    unfold sumFirstOne at hf
    cases hb : byteFirstOne 8 x with
    | some j0 =>
      rw [hb] at hf; simp at hf; subst hf
      unfold scanSum
      rw [scanByteBits_some_noHit 8 x _ n hb h1 h2 hk]
    | none =>
      rw [hb] at hf
      cases hr : sumFirstOne rest with
      | none => rw [hr] at hf; simp at hf
      | some j' =>
        rw [hr] at hf; simp at hf; subst hf
        unfold scanSum
        rw [scanByteBits_none_noHit 8 x n hb h1 h2
          (fun k hk1 hk2 => hk k hk1 (by omega))]
        exact ih j' _ hr (wrap64_range _).1 (wrap64_range _).2
          (fun k hk1 hk2 => by
            rw [wrap64_sub]
            have : n - (8 : Nat) - (k : Int) = n - ((k + 8 : Nat) : Int) := by push_cast; ring
            rw [this]
            exact hk (k + 8) (by omega) (by omega))

lemma scanSum_noHit_ne_true (D : List Nat) (n : Int) (h1 : -2 ^ 63 ≤ n) (h2 : n < 2 ^ 63)
    (hk : ∀ k : Nat, 1 ≤ k → k ≤ 8 * D.length → wrap64 (n - k) ≠ 0) :
    scanSum D n ≠ .ok true := by
  cases hD : sumFirstOne D with
  | none => rw [scanSum_noHit_none D n hD h1 h2 hk]; simp
  | some j =>
    have hj := sumFirstOne_lt D j hD
    rw [scanSum_noHit_some D j n hD h1 h2 (fun k hk1 hk2 => hk k hk1 (by omega))]
    simp

/-! Relating the scan's shift-based bit test to the arithmetic reading of
the bits of a byte and of a digest. -/

set_option maxRecDepth 4000 in
lemma byteFirstOne_none_iff : ∀ x < 256, (byteFirstOne 8 x = none ↔ x = 0) := by decide

set_option maxRecDepth 4000 in
lemma byteFirstOne_bits : ∀ x < 256, ∀ j < 8, byteFirstOne 8 x = some j →
    (∀ b < 8, b < j → x / 2 ^ (7 - b) % 2 = 0) ∧ x / 2 ^ (7 - j) % 2 = 1 := by decide

lemma sumBit_nil (k : Nat) : sumBit [] k = 0 := by simp [sumBit]

lemma sumBit_cons_lt (x : Nat) (rest : List Nat) (k : Nat) (h : k < 8) :
    sumBit (x :: rest) k = x / 2 ^ (7 - k) % 2 := by
  unfold sumBit
  rw [Nat.div_eq_of_lt h, Nat.mod_eq_of_lt h, List.getD_cons_zero]

lemma sumBit_cons_ge (x : Nat) (rest : List Nat) (k : Nat) :
    sumBit (x :: rest) (k + 8) = sumBit rest k := by
  unfold sumBit
  have h1 : (k + 8) / 8 = k / 8 + 1 := by omega
  have h2 : (k + 8) % 8 = k % 8 := by omega
  rw [h1, h2, List.getD_cons_succ]

lemma sumFirstOne_none_bits : ∀ (D : List Nat), (∀ b ∈ D, b < 256) → sumFirstOne D = none →
    ∀ k, sumBit D k = 0 := by
  intro D
  induction D with
  | nil => intro _ _ k; exact sumBit_nil k
  | cons x rest ih =>
    intro hD hf k
    unfold sumFirstOne at hf
    cases hb : byteFirstOne 8 x with
    | some j => rw [hb] at hf; simp at hf
    | none =>
      rw [hb] at hf
      have hx : x = 0 := (byteFirstOne_none_iff x (hD x (by simp))).mp hb
      have hr : sumFirstOne rest = none := by
        cases hr : sumFirstOne rest with
        | none => rfl
        | some j => rw [hr] at hf; simp at hf
      by_cases hk : k < 8
      · rw [sumBit_cons_lt x rest k hk, hx]; simp
      · obtain ⟨k', rfl⟩ : ∃ k', k = k' + 8 := ⟨k - 8, by omega⟩
        rw [sumBit_cons_ge]
        exact ih (fun b hb' => hD b (by simp [hb'])) hr k'

lemma sumFirstOne_some_bits : ∀ (D : List Nat) (j : Nat), (∀ b ∈ D, b < 256) →
    sumFirstOne D = some j → (∀ k < j, sumBit D k = 0) ∧ sumBit D j = 1 := by
  intro D
  induction D with
  | nil => intro j _ hf; simp [sumFirstOne] at hf
  | cons x rest ih =>
    intro j hD hf
    unfold sumFirstOne at hf
    cases hb : byteFirstOne 8 x with
    | some j0 =>
      rw [hb] at hf; simp at hf; subst hf
      have hj8 : j0 < 8 := byteFirstOne_lt _ _ _ hb
      have hbits := byteFirstOne_bits x (hD x (by simp)) j0 hj8 hb
      constructor
      · intro k hk
        rw [sumBit_cons_lt x rest k (by omega)]
        exact hbits.1 k (by omega) hk
      · rw [sumBit_cons_lt x rest j0 hj8]
        exact hbits.2
    | none =>
      rw [hb] at hf
      have hx : x = 0 := (byteFirstOne_none_iff x (hD x (by simp))).mp hb
      cases hr : sumFirstOne rest with
      | none => rw [hr] at hf; simp at hf
      | some j' =>
        rw [hr] at hf; simp at hf; subst hf
        have hrest := ih j' (fun b hb' => hD b (by simp [hb'])) hr
        constructor
        · intro k hk
          by_cases hk8 : k < 8
          · rw [sumBit_cons_lt x rest k hk8, hx]; simp
          · obtain ⟨k', rfl⟩ : ∃ k', k = k' + 8 := ⟨k - 8, by omega⟩
            rw [sumBit_cons_ge]
            exact hrest.1 k' (by omega)
        · rw [sumBit_cons_ge]
          exact hrest.2

lemma sumFirstOne_none_iff_zero : ∀ (D : List Nat), (∀ b ∈ D, b < 256) →
    (sumFirstOne D = none ↔ ∀ b ∈ D, b = 0) := by
  intro D
  induction D with
  | nil => intro _; simp [sumFirstOne]
  | cons x rest ih =>
    intro hD
    unfold sumFirstOne
    cases hb : byteFirstOne 8 x with
    | some j =>
      have hx : ¬ (x = 0) := by
        intro h
        rw [(byteFirstOne_none_iff x (hD x (by simp))).mpr h] at hb
        exact Option.noConfusion hb
      simp [hx]
    | none =>
      have hx : x = 0 := (byteFirstOne_none_iff x (hD x (by simp))).mp hb
      have := ih (fun b hb' => hD b (by simp [hb']))
      cases hr : sumFirstOne rest with
      | none =>
        have hz := this.mp hr
        simp [hx, hr]
        exact hz
      | some j =>
        have : ¬ ∀ b ∈ rest, b = 0 := fun h => by
          rw [this.mpr h] at hr; exact Option.noConfusion hr
        simp [hx, this]

/-! The search loop: any successful run returns a candidate that the
predicate re-confirms, and (absent 64-bit wraparound of the counters) the
returned nonce is the least valid one. -/

lemma DoProofForAux_ok_validate (p : Worker) (fired : Nat → Bool) (msg : List Nat) :
    ∀ (fuel k : Nat) (proof ri : Int) (pw : PoWork),
      DoProofForAux p fired msg fuel k proof ri = some (.ok pw) →
      ValidatePoWork p pw = .ok true := by
  intro fuel
  induction fuel with
  | zero => intro k proof ri pw h; simp [DoProofForAux] at h
  | succ fuel ih =>
    intro k proof ri pw h
    unfold DoProofForAux at h
    cases hv : ValidatePoWork p ⟨msg, proof, ri⟩ with
    | error e => rw [hv] at h; simp at h
    | ok b =>
      rw [hv] at h
      cases b with
      | true =>
        simp at h
        rw [← h]
        exact hv
      | false =>
        simp at h
        split at h
        · simp at h
        · exact ih _ _ _ _ h

lemma DoProofForAux_ok_inv (p : Worker) (fired : Nat → Bool) (msg : List Nat) :
    ∀ (fuel k : Nat) (pw : PoWork),
      (k : Int) + fuel < 2 ^ 63 →
      DoProofForAux p fired msg fuel k k k = some (.ok pw) →
      pw.msg = msg ∧ pw.requiredIterations = pw.proof ∧ (k : Int) ≤ pw.proof ∧
        pw.proof < 2 ^ 63 ∧ ValidatePoWork p pw = .ok true ∧
        ∀ m : Nat, k ≤ m → (m : Int) < pw.proof →
          ValidatePoWork p ⟨msg, m, m⟩ ≠ .ok true := by
  intro fuel
  induction fuel with
  | zero => intro k pw _ h; simp [DoProofForAux] at h
  | succ fuel ih =>
    intro k pw hfuel h
    unfold DoProofForAux at h
    cases hv : ValidatePoWork p ⟨msg, (k : Int), (k : Int)⟩ with
    | error e => rw [hv] at h; simp at h
    | ok b =>
      rw [hv] at h
      cases b with
      | true =>
        simp at h
        refine ⟨by rw [← h], by rw [← h], by rw [← h], ?_, by rw [← h]; exact hv, ?_⟩
        · rw [← h]; push_cast at hfuel ⊢; omega
        · intro m hm hlt
          rw [← h] at hlt
          simp at hlt
          omega
      | false =>
        simp at h
        split at h
        · simp at h
        · have hw : wrap64 ((k : Int) + 1) = ((k + 1 : Nat) : Int) := by
            rw [wrap64_id _ (by omega) (by push_cast at hfuel ⊢; omega)]
            push_cast; ring
          rw [hw] at h
          obtain ⟨h1, h2, h3, h4, h5, h6⟩ :=
            ih (k + 1) pw (by push_cast at hfuel ⊢; omega) h
          refine ⟨h1, h2, by push_cast at h3 ⊢; omega, h4, h5, ?_⟩
          intro m hm hlt
          by_cases hmk : m = k
          · subst hmk
            intro hc
            rw [hv] at hc
            simp at hc
          · exact h6 m (by omega) hlt

/-! The nonce encoding: 8 bytes, little-endian, two's complement. -/

lemma uint64OfInt64_lt (v : Int) : uint64OfInt64 v < 2 ^ 64 := by
  unfold uint64OfInt64
  have h1 : 0 ≤ v % 2 ^ 64 := Int.emod_nonneg v (by norm_num)
  have h2 : v % 2 ^ 64 < 2 ^ 64 := Int.emod_lt_of_pos v (by norm_num)
  omega

lemma leDecode_putUint64LE (v : Int) : (leDecode (putUint64LE v) : Int) = v % 2 ^ 64 := by
  have hlt := uint64OfInt64_lt v
  have hnat : leDecode (putUint64LE v) = uint64OfInt64 v := by
    unfold putUint64LE
    simp only [List.range_succ, List.range_zero, List.map_append, List.map_cons, List.map_nil,
      List.nil_append, List.cons_append, leDecode, Nat.shiftRight_eq_div_pow]
    norm_num
    omega
  rw [hnat]
  unfold uint64OfInt64
  omega

lemma putUint64LE_length (v : Int) : (putUint64LE v).length = 8 := by
  simp [putUint64LE]

lemma ValidatePoWork_eq (p : Worker) (pow : PoWork) :
    ValidatePoWork p pow
      = scanSum (p.getHash.digestOf (pow.msg ++ putUint64LE pow.proof)) p.difficulty := by
  simp [ValidatePoWork]

/-- C1: for every digest D and difficulty N with 1 ≤ N ≤ bitlength(D), the
bit scan of `ValidatePoWork` succeeds iff the first N bits of D (bytes in
order, most-significant bit first) are all zero, and it returns no error in
this range. -/
theorem C1_validate_iff_leading_zeros (D : List Nat) (N : Int)
    (hD : ∀ b ∈ D, b < 256) (h1 : 1 ≤ N) (h2 : N ≤ 8 * (D.length : Int)) (h3 : N < 2 ^ 63) :
    (scanSum D N = .ok true ↔ ∀ k : Nat, (k : Int) < N → sumBit D k = 0) ∧
      ∃ b : Bool, scanSum D N = .ok b := by
  cases hf : sumFirstOne D with
  | none =>
    have htrue := scanSum_none_le D N hf h1 h3 h2
    exact ⟨⟨fun _ k _ => sumFirstOne_none_bits D hD hf k, fun _ => htrue⟩, ⟨true, htrue⟩⟩
  | some j =>
    have hbits := sumFirstOne_some_bits D j hD hf
    by_cases hle : N ≤ (j : Int)
    · have htrue := scanSum_some_le D j N hf h1 h3 hle
      exact ⟨⟨fun _ k hk => hbits.1 k (by omega), fun _ => htrue⟩, ⟨true, htrue⟩⟩
    · have hfalse := scanSum_some_gt D j N hf h1 h3 (by omega)
      refine ⟨⟨fun hc => ?_, fun hall => ?_⟩, ⟨false, hfalse⟩⟩
      · rw [hfalse] at hc; simp at hc
      · exfalso
        have h0 := hall j (by omega)
        have h1' := hbits.2
        omega

theorem C1_witness :
    ((1 : Int) ≤ 8) ∧
      (scanSum [0, 255] 8 = .ok true ↔
        ∀ k : Nat, (k : Int) < 8 → sumBit [0, 255] k = 0) ∧
      ∃ b : Bool, scanSum [0, 255] 8 = .ok b :=
  ⟨by decide,
   C1_validate_iff_leading_zeros [0, 255] 8 (by decide) (by decide) (by decide) (by decide)⟩

/-- C2: any proof returned by a successful synchronous search is
re-confirmed by `ValidatePoWork` under the same configuration. -/
theorem C2_search_roundtrip (p : Worker) (fired : Nat → Bool) (fuel : Nat) (msg : List Nat)
    (pw : PoWork) (h : DoProofFor p fired fuel msg = some (.ok pw)) :
    ValidatePoWork p pw = .ok true :=
  DoProofForAux_ok_validate p fired msg fuel 0 0 0 pw h

theorem C2_witness :
    DoProofFor (workerConst 1 [0] 5000) (fun _ => false) 1 [] = some (.ok ⟨[], 0, 0⟩) ∧
      ValidatePoWork (workerConst 1 [0] 5000) ⟨[], 0, 0⟩ = .ok true :=
  ⟨rfl, C2_search_roundtrip (workerConst 1 [0] 5000) (fun _ => false) 1 [] ⟨[], 0, 0⟩ rfl⟩

/-- C3 counterexample: with digest [128] (bitlength 8) and difficulty 9 the
scan returns a plain false with no error, while the claim requires a
DigestTooShort signal for every difficulty exceeding the bitlength. -/
theorem C3_counterexample :
    8 * (([128] : List Nat).length : Int) < 9 ∧
      scanSum [128] 9 = .ok false ∧
      scanSum [128] 9 ≠ .error "Buffer overrun: not enough bits in hash" := by
  refine ⟨by decide, rfl, fun h => ?_⟩
  rw [show scanSum [128] 9 = Except.ok false from rfl] at h
  exact Except.noConfusion h

/-- C3 amended: for difficulty N exceeding the digest's bitlength the scan
never succeeds; it signals the buffer-overrun (DigestTooShort) error exactly
when every bit of the digest is zero, and returns a plain false result as
soon as the digest contains a set bit. -/
theorem C3_amended_digest_too_short (D : List Nat) (N : Int) (hD : ∀ b ∈ D, b < 256)
    (h2 : 8 * (D.length : Int) < N) (h3 : N < 2 ^ 63) :
    scanSum D N ≠ .ok true ∧
      ((∀ b ∈ D, b = 0) → scanSum D N = .error "Buffer overrun: not enough bits in hash") ∧
      ((∃ b ∈ D, b ≠ 0) → scanSum D N = .ok false) := by
  have hpos : (0 : Int) ≤ 8 * (D.length : Int) := by positivity
  have h1 : 1 ≤ N := by omega
  refine ⟨?_, ?_, ?_⟩
  · cases hf : sumFirstOne D with
    | none => rw [scanSum_none_gt D N hf h1 h3 h2]; simp
    | some j =>
      have hj := sumFirstOne_lt D j hf
      rw [scanSum_some_gt D j N hf h1 h3 (by omega)]
      simp
  · intro hz
    exact scanSum_none_gt D N ((sumFirstOne_none_iff_zero D hD).mpr hz) h1 h3 h2
  · rintro ⟨b, hb, hbne⟩
    cases hfo : sumFirstOne D with
    | none => exact absurd ((sumFirstOne_none_iff_zero D hD).mp hfo b hb) hbne
    | some j =>
      have hj := sumFirstOne_lt D j hfo
      exact scanSum_some_gt D j N hfo h1 h3 (by omega)

theorem C3_witness :
    (8 * (([0, 0] : List Nat).length : Int) < 17) ∧
      scanSum [0, 0] 17 ≠ .ok true ∧
      scanSum [0, 0] 17 = .error "Buffer overrun: not enough bits in hash" := by
  have h := C3_amended_digest_too_short [0, 0] 17 (by decide) (by decide) (by decide)
  exact ⟨by decide, h.1, h.2.1 (by decide)⟩

/-- C4: for every candidate, the bytes fed to the hash are exactly the raw
message followed by the 8-byte little-endian two's-complement encoding of
the 64-bit nonce, with the hash reset before use (the capability's prior
state is irrelevant); the encoding is 8 bytes long and decodes, read
little-endian, to the nonce reduced modulo 2^64. -/
theorem C4_hash_input_encoding (p : Worker) (pow : PoWork) (s : List Nat) (v : Int) :
    ValidatePoWork p pow
        = scanSum (p.getHash.digestOf (pow.msg ++ putUint64LE pow.proof)) p.difficulty ∧
      ValidatePoWork { p with getHash := { p.getHash with state := s } } pow
        = ValidatePoWork p pow ∧
      (putUint64LE v).length = 8 ∧
      (leDecode (putUint64LE v) : Int) = v % 2 ^ 64 := by
  refine ⟨ValidatePoWork_eq p pow, ?_, putUint64LE_length v, leDecode_putUint64LE v⟩
  rw [ValidatePoWork_eq, ValidatePoWork_eq]

/-- C5 counterexample: with timeoutMillis = 0 the timer is armed with a
zero duration, so Go guarantees nothing before the first check; under the
realizable schedule in which it has already fired, the search returns the
Timeout failure instead of looping without a ceiling. -/
theorem C5_counterexample :
    (workerConst 1 [255] 0).maxWait = 0 ∧
      DoProofFor (workerConst 1 [255] 0) (fun _ => true) 2 [] = some (.error timeoutMsg) :=
  ⟨rfl, rfl⟩

/-- C5 amended: with timeoutMillis = 0 the timeout channel may fire
immediately; whenever it has fired by the first post-iteration check and
the first candidate is invalid, the synchronous search fails with Timeout,
so the loop is externally bounded. -/
theorem C5_amended_timeout_zero (p : Worker) (fired : Nat → Bool) (fuel : Nat)
    (msg : List Nat) (_h0 : p.maxWait = 0)
    (h1 : ValidatePoWork p ⟨msg, 0, 0⟩ = .ok false)
    (h2 : fired 0 = true) (h3 : 1 ≤ fuel) :
    DoProofFor p fired fuel msg = some (.error timeoutMsg) := by
  obtain ⟨f, rfl⟩ : ∃ f, fuel = f + 1 := ⟨fuel - 1, by omega⟩
  unfold DoProofFor DoProofForAux
  rw [h1]
  simp [h2]

theorem C5_witness :
    (workerConst 1 [255] 0).maxWait = 0 ∧
      DoProofFor (workerConst 1 [255] 0) (fun _ => true) 1 [] = some (.error timeoutMsg) :=
  ⟨rfl, C5_amended_timeout_zero (workerConst 1 [255] 0) (fun _ => true) 1 [] rfl rfl rfl
    (by decide)⟩

/-- C6: `SetDifficulty` stores its argument unconditionally and reports an
error exactly when it is nonpositive; `SetTimeout` stores its argument
unconditionally and reports an error exactly when it is negative; neither
setter changes any other field of the worker. -/
theorem C6_setters_store_and_flag (p : Worker) (n ms : Int) :
    SetDifficulty p n
        = ({ p with difficulty := n },
           if n ≤ 0 then some "Difficulty must be at least 1" else none) ∧
      SetTimeout p ms
        = ({ p with maxWait := ms },
           if ms < 0 then some "Timeout must be greater than or equal to 0" else none) := by
  constructor
  · by_cases h : n ≤ 0 <;> simp [SetDifficulty, h]
  · by_cases h : ms < 0 <;> simp [SetTimeout, h]

/-- C7: a successful synchronous search returns the smallest nonnegative
nonce whose digest satisfies the predicate, with the iteration count equal
to that nonce (the number of failed candidates before it); any other
successful run with the same configuration, hash behaviour and message
returns the same nonce. -/
theorem C7_minimal_nonce (p : Worker) (fired : Nat → Bool) (fuel : Nat) (msg : List Nat)
    (pw : PoWork) (hfuel : (fuel : Int) < 2 ^ 63)
    (h : DoProofFor p fired fuel msg = some (.ok pw)) :
    pw.msg = msg ∧ pw.requiredIterations = pw.proof ∧ 0 ≤ pw.proof ∧
      ValidatePoWork p pw = .ok true ∧
      (∀ m : Nat, (m : Int) < pw.proof → ValidatePoWork p ⟨msg, m, m⟩ ≠ .ok true) ∧
      (∀ (fired2 : Nat → Bool) (fuel2 : Nat) (pw2 : PoWork), (fuel2 : Int) < 2 ^ 63 →
        DoProofFor p fired2 fuel2 msg = some (.ok pw2) → pw2.proof = pw.proof) := by
  obtain ⟨h1, h2, h3, h4, h5, h6⟩ :=
    DoProofForAux_ok_inv p fired msg fuel 0 pw (by push_cast; omega) h
  refine ⟨h1, h2, by exact_mod_cast h3, h5, fun m hm => h6 m (Nat.zero_le m) hm, ?_⟩
  intro fired2 fuel2 pw2 hfuel2 hrun2
  obtain ⟨g1, g2, g3, g4, g5, g6⟩ :=
    DoProofForAux_ok_inv p fired2 msg fuel2 0 pw2 (by push_cast; omega) hrun2
  have hpw : pw = ⟨msg, pw.proof, pw.proof⟩ := by
    obtain ⟨m1, pr1, ri1⟩ := pw
    simp at h1 h2 ⊢
    exact ⟨h1, h2⟩
  have hpw2 : pw2 = ⟨msg, pw2.proof, pw2.proof⟩ := by
    obtain ⟨m2, pr2, ri2⟩ := pw2
    simp at g1 g2 ⊢
    exact ⟨g1, g2⟩
  by_contra hne
  rcases lt_or_gt_of_ne hne with hlt | hgt
  · have hcast : ((pw2.proof.toNat : Nat) : Int) = pw2.proof := Int.toNat_of_nonneg (by omega)
    have hne2 := h6 pw2.proof.toNat (Nat.zero_le _) (by omega)
    rw [hcast, ← hpw2] at hne2
    exact hne2 g5
  · have hcast : ((pw.proof.toNat : Nat) : Int) = pw.proof := Int.toNat_of_nonneg (by omega)
    have hne2 := g6 pw.proof.toNat (Nat.zero_le _) (by omega)
    rw [hcast, ← hpw] at hne2
    exact hne2 h5

theorem C7_witness :
    (((2 : Nat) : Int) < 2 ^ 63) ∧
      (⟨[], 1, 1⟩ : PoWork).requiredIterations = (⟨[], 1, 1⟩ : PoWork).proof ∧
      ValidatePoWork stepWorker ⟨[], 1, 1⟩ = .ok true ∧
      ValidatePoWork stepWorker ⟨[], 0, 0⟩ ≠ .ok true := by
  have h := C7_minimal_nonce stepWorker (fun _ => false) 2 [] ⟨[], 1, 1⟩ (by decide) rfl
  exact ⟨by decide, h.2.1, h.2.2.2.1, h.2.2.2.2.1 0 (by decide)⟩

/-- C8 counterexample: with difficulty 0 the remaining-count is decremented
before the zero test, so an all-zero digest runs off the end and yields the
buffer-overrun error rather than the success the claim requires for every
digest. -/
theorem C8_counterexample :
    (workerConst 0 [0] 5000).difficulty = 0 ∧
      ValidatePoWork (workerConst 0 [0] 5000) ⟨[], 0, 0⟩
        = .error "Buffer overrun: not enough bits in hash" ∧
      ValidatePoWork (workerConst 0 [0] 5000) ⟨[], 0, 0⟩ ≠ .ok true := by
  refine ⟨rfl, rfl, fun h => ?_⟩
  rw [show ValidatePoWork (workerConst 0 [0] 5000) ⟨[], 0, 0⟩
      = Except.error "Buffer overrun: not enough bits in hash" from rfl] at h
  exact Except.noConfusion h

/-- C8 amended: for difficulty N = 0 the scan never returns success: a
digest containing a set bit yields a plain invalid result, and an all-zero
digest yields the buffer-overrun (DigestTooShort) error, because the count
is decremented before being compared with zero. -/
theorem C8_amended_zero_difficulty (D : List Nat) (hD : ∀ b ∈ D, b < 256)
    (hlen : 8 * (D.length : Int) < 2 ^ 63) :
    scanSum D 0 ≠ .ok true ∧
      ((∀ b ∈ D, b = 0) → scanSum D 0 = .error "Buffer overrun: not enough bits in hash") ∧
      ((∃ b ∈ D, b ≠ 0) → scanSum D 0 = .ok false) := by
  have hk : ∀ k : Nat, 1 ≤ k → k ≤ 8 * D.length → wrap64 ((0 : Int) - k) ≠ 0 := by
    intro k hk1 hk2
    have hkz : (k : Int) ≤ 8 * (D.length : Int) := by omega
    unfold wrap64
    omega
  refine ⟨scanSum_noHit_ne_true D 0 (by norm_num) (by norm_num) hk, ?_, ?_⟩
  · intro hz
    exact scanSum_noHit_none D 0 ((sumFirstOne_none_iff_zero D hD).mpr hz)
      (by norm_num) (by norm_num) hk
  · rintro ⟨b, hb, hbne⟩
    cases hfo : sumFirstOne D with
    | none => exact absurd ((sumFirstOne_none_iff_zero D hD).mp hfo b hb) hbne
    | some j =>
      have hj := sumFirstOne_lt D j hfo
      exact scanSum_noHit_some D j 0 hfo (by norm_num) (by norm_num)
        (fun k h1 h2 => hk k h1 (by omega))

theorem C8_witness :
    scanSum [1] 0 ≠ .ok true ∧ scanSum [1] 0 = .ok false := by
  have h := C8_amended_zero_difficulty [1] (by decide) (by decide)
  exact ⟨h.1, h.2.2 ⟨1, by decide, by decide⟩⟩

/-- C9: the asynchronous entry points deliver exactly the synchronous
result: when the underlying search terminates with outcome r, the channel
returned by `PrepareProof` carries exactly [r] and is closed, and
`SendProofToChannel` appends exactly [r] to the caller's channel without
changing its closed flag. -/
theorem C9_async_equiv_sync (p : Worker) (fired : Nat → Bool) (fuel : Nat) (msg : List Nat)
    (r : Except String PoWork) (c : Channel)
    (h : DoProofFor p fired fuel msg = some r) :
    (PrepareProof p fired fuel msg).sent = [r] ∧
      (PrepareProof p fired fuel msg).closed = true ∧
      (SendProofToChannel p fired fuel msg c).sent = c.sent ++ [r] ∧
      (SendProofToChannel p fired fuel msg c).closed = c.closed := by
  unfold PrepareProof SendProofToChannel
  rw [h]
  exact ⟨rfl, rfl, rfl, rfl⟩

theorem C9_witness :
    (PrepareProof (workerConst 1 [0] 5000) (fun _ => false) 1 []).sent
        = [.ok ⟨[], 0, 0⟩] ∧
      (PrepareProof (workerConst 1 [0] 5000) (fun _ => false) 1 []).closed = true ∧
      (SendProofToChannel (workerConst 1 [0] 5000) (fun _ => false) 1 [] GetChannel).sent
        = GetChannel.sent ++ [.ok ⟨[], 0, 0⟩] ∧
      (SendProofToChannel (workerConst 1 [0] 5000) (fun _ => false) 1 [] GetChannel).closed
        = GetChannel.closed :=
  C9_async_equiv_sync (workerConst 1 [0] 5000) (fun _ => false) 1 [] (.ok ⟨[], 0, 0⟩)
    GetChannel rfl

lemma validate_nonpos_ne_true (p : Worker) (hd : p.difficulty ≤ 0)
    (hd2 : -2 ^ 63 ≤ p.difficulty)
    (hlen : ∀ bs : List Nat, 8 * ((p.getHash.digestOf bs).length : Int) < 2 ^ 63) :
    ∀ pow : PoWork, ValidatePoWork p pow ≠ .ok true := by
  intro pow
  rw [ValidatePoWork_eq]
  have hlenD := hlen (pow.msg ++ putUint64LE pow.proof)
  apply scanSum_noHit_ne_true _ _ hd2 (by omega)
  intro k h1 h2
  have hkz : (k : Int) ≤ 8 * (((p.getHash.digestOf (pow.msg ++ putUint64LE pow.proof)).length
    : Nat) : Int) := by omega
  unfold wrap64
  omega

/-- C10: when the stored difficulty is nonpositive (possible because the
setter stores invalid values), the predicate never succeeds on any
candidate, and consequently no search with that worker can return a
Proof. -/
theorem C10_nonpositive_never_valid (p : Worker) (hd : p.difficulty ≤ 0)
    (hd2 : -2 ^ 63 ≤ p.difficulty)
    (hlen : ∀ bs : List Nat, 8 * ((p.getHash.digestOf bs).length : Int) < 2 ^ 63) :
    (∀ pow : PoWork, ValidatePoWork p pow ≠ .ok true) ∧
      ∀ (fired : Nat → Bool) (fuel : Nat) (msg : List Nat) (pw : PoWork),
        DoProofFor p fired fuel msg ≠ some (.ok pw) := by
  refine ⟨validate_nonpos_ne_true p hd hd2 hlen, ?_⟩
  intro fired fuel msg pw h
  exact validate_nonpos_ne_true p hd hd2 hlen pw
    (DoProofForAux_ok_validate p fired msg fuel 0 0 0 pw h)

theorem C10_witness :
    ValidatePoWork (workerConst (-3) [7] 5000) ⟨[2], 0, 0⟩ ≠ .ok true ∧
      DoProofFor (workerConst (-3) [7] 5000) (fun _ => false) 3 [] ≠ some (.ok ⟨[], 0, 0⟩) := by
  have h := C10_nonpositive_never_valid (workerConst (-3) [7] 5000) (by decide) (by decide)
    (fun bs => by exact (by decide : 8 * ((([7] : List Nat).length : Nat) : Int) < 2 ^ 63))
  exact ⟨h.1 ⟨[2], 0, 0⟩, h.2 (fun _ => false) 3 [] ⟨[], 0, 0⟩⟩
